/-
Verification of the quarto-cli project render pipeline.

This file gives a shallow embedding of the incremental-build core:
the input-target index cache (`readInputTargetIndex` / `inputTargetIndex`
from project-index.ts), the project render orchestration
(`renderProject` from project.ts), the artifact/library relocation
helpers (`relocateDir`, the lib-dir merge), the resource filtering
passes and the resource copy loop.  Filesystem effects are made
explicit: the slice of filesystem state each function consults is a
record, and mutating operations return the updated state.
-/
import Mathlib

namespace Quarto

/-! ## Input target index (project-index.ts)

The index cache records a title, a partitioned-markdown summary and the
resolved formats for one input file.  JavaScript `Date` modification
times are modelled as `Option Nat`: `none` is a `null` mtime (a `Date`
object is always truthy in JS, so truthiness of an mtime coincides with
it being non-null). -/

/-- Partitioned markdown summary; only `headingText` is consulted here. -/
structure PartitionedMarkdown where
  headingText : Option String
  deriving DecidableEq, Repr

/-- Resolved format configuration; only the `metadata[kTitle]` field is
consulted by the index builder. -/
structure Format where
  metadataTitle : Option String
  deriving DecidableEq, Repr

/-- The persisted index entry (interface `InputTargetIndex`). -/
structure InputTargetIndex where
  title : Option String
  markdown : PartitionedMarkdown
  formats : List (String × Format)
  deriving DecidableEq, Repr

/-- The slice of filesystem state consulted by `readInputTargetIndex`:
whether the index (cache) file exists, the input file's mtime, the index
file's mtime, the project configuration file (`none` when
`projectConfigFile` returns undefined, otherwise `some` of its mtime),
and the result of `JSON.parse` on the cache contents (`none` when the
parse throws). -/
structure IndexFsState where
  indexExists : Bool
  inputMtime : Option Nat
  indexMtime : Option Nat
  projConfigFile : Option (Option Nat)
  indexParse : Option InputTargetIndex
  deriving DecidableEq, Repr

/-- The value `projMod` computed by `readInputTargetIndex`:
`projConfigFile ? Deno.statSync(projConfigFile).mtime : 0`.  Both the
number `0` (no config file) and a `null` mtime are falsy in JS, so both
collapse to `none`; a non-null mtime `Date` is always truthy. -/
def projModOf (st : IndexFsState) : Option Nat :=
  st.projConfigFile.bind id

/-- Embedding of `readInputTargetIndex(projectDir, input)`.  The guard is
`inputMod && indexMod && (indexMod >= inputMod) && (!projMod || (indexMod >= projMod))`;
when it holds the cache contents are parsed, a parse failure being
caught and turned into `undefined`. -/
def readInputTargetIndex (st : IndexFsState) : Option InputTargetIndex :=
  if st.indexExists then
    match st.inputMtime, st.indexMtime with
    | some inputMod, some indexMod =>
      if inputMod ≤ indexMod ∧ ∀ projMod ∈ projModOf st, projMod ≤ indexMod then
        st.indexParse
      else
        none
    | _, _ => none
  else
    none

/-- The inputs `inputTargetIndex` consults beyond the cache file: the
input file's existence and directory-ness, whether an execution engine
claims it, the cache state, and the data the regeneration path obtains
from the external collaborators (`renderFormats` and
`engine.partitionedMarkdown`). -/
structure ProjectInputState where
  inputFileExists : Bool
  inputIsDirectory : Bool
  engineClaims : Bool
  fs : IndexFsState
  renderFormats : List (String × Format)
  partitionedMarkdown : PartitionedMarkdown
  deriving DecidableEq, Repr

/-- JS falsiness of the optional title (`!index.title`): true for
`undefined` and for the empty string. -/
def falsyTitle : Option String → Bool
  | none => true
  | some s => s == ""

/-- The entry built by the regeneration path of `inputTargetIndex`: the
title comes from the first resolved format's metadata, falling back to
the first heading of the partitioned markdown when falsy. -/
def regeneratedIndex (st : ProjectInputState) : InputTargetIndex :=
  let firstFormat := st.renderFormats.head?
  let index : InputTargetIndex :=
    { title := firstFormat.bind (fun f => f.2.metadataTitle)
      markdown := st.partitionedMarkdown
      formats := st.renderFormats }
  if falsyTitle index.title then
    { index with title := index.markdown.headingText }
  else
    index

/-- Result of `inputTargetIndex`: the returned entry, and the entry
written to the index file when the regeneration path ran (`none` when
nothing was persisted). -/
structure InputTargetResult where
  result : Option InputTargetIndex
  persisted : Option InputTargetIndex
  deriving DecidableEq, Repr

/-- Embedding of `inputTargetIndex(project, input)`: undefined for a
missing or directory input or an unclaimed file; otherwise the cache is
consulted, and on a miss the entry is regenerated and persisted. -/
def inputTargetIndex (st : ProjectInputState) : InputTargetResult :=
  if !st.inputFileExists || st.inputIsDirectory then
    { result := none, persisted := none }
  else if !st.engineClaims then
    { result := none, persisted := none }
  else
    match readInputTargetIndex st.fs with
    | some idx => { result := some idx, persisted := none }
    | none =>
      let idx := regeneratedIndex st
      { result := some idx, persisted := some idx }

/-! ## renderProject orchestration (project.ts)

The setup phase of `renderProject` decides incremental mode, the
always-execute file set, the final file list and the freezer option
before delegating to `renderFiles`.  Paths are strings; `join` is
modelled for simple segments as interposing a separator. -/

/-- Path join for simple relative segments: `join(a, b) = a ++ sep ++ b`. -/
def pathJoin (a b : String) : String := a ++ "/" ++ b

/-- The slice of `RenderOptions` consulted by the setup phase. -/
structure RenderOptions where
  useFreezer : Bool
  deriving DecidableEq, Repr

/-- Collaborator and filesystem inputs consulted by the setup phase:
the discovered input set (`context.files.input`), the working directory,
the path predicates/resolvers, and the project type's optional
`incrementalRenderAll` hook. -/
structure RenderProjectEnv where
  contextInputs : List String
  cwd : String
  isAbsolutePath : String → Bool
  targetExists : String → Bool
  realPath : String → String
  hasIncrementalRenderAll : Bool
  incrementalRenderAll : Bool

/-- Normalization of one requested render target (project.ts lines
227–233): resolve against the working directory, throw when the target
does not exist, else take its real path. -/
def normalizeRenderTarget (env : RenderProjectEnv) (file : String) :
    Except String String :=
  let target := if env.isAbsolutePath file then file else pathJoin env.cwd file
  if env.targetExists target then .ok (env.realPath target)
  else .error ("Render target does not exist: " ++ file)

/-- Normalization of the whole requested list (`files.map(...)` with a
throw on the first missing target). -/
def normalizeRenderTargets (env : RenderProjectEnv) :
    List String → Except String (List String)
  | [] => .ok []
  | f :: rest =>
    match normalizeRenderTarget env f with
    | .error e => .error e
    | .ok r =>
      match normalizeRenderTargets env rest with
      | .error e => .error e
      | .ok rs => .ok (r :: rs)

/-- Output of the setup phase: the incremental flag, the always-execute
set handed to `renderFiles`, the final file list and the final freezer
option. -/
structure RenderSetup where
  incremental : Bool
  alwaysExecuteFiles : Option (List String)
  files : List String
  useFreezer : Bool
  deriving DecidableEq, Repr

/-- Embedding of the setup phase of `renderProject` (project.ts lines
216–250): `incremental = !!files`; `alwaysExecuteFiles` is a deep clone
of the requested list when incremental and the caller did not set
`useFreezer`; the requested list is then normalized (throwing on a
missing target); the `incrementalRenderAll` hook may override the list
to the full input set with the freezer forced on; finally an omitted
list defaults to the full input set. -/
def renderProjectSetup (env : RenderProjectEnv) (options : RenderOptions)
    (files? : Option (List String)) : Except String RenderSetup :=
  let incremental := files?.isSome
  let alwaysExecuteFiles : Option (List String) :=
    if incremental && !options.useFreezer then files? else none
  match files?, alwaysExecuteFiles with
  | some fs, some _ =>
    match normalizeRenderTargets env fs with
    | .error e => .error e
    | .ok normalized =>
      if env.hasIncrementalRenderAll && env.incrementalRenderAll then
        .ok
          { incremental := incremental
            alwaysExecuteFiles := alwaysExecuteFiles
            files := env.contextInputs
            useFreezer := true }
      else
        .ok
          { incremental := incremental
            alwaysExecuteFiles := alwaysExecuteFiles
            files := normalized
            useFreezer := options.useFreezer }
  | _, _ =>
    .ok
      { incremental := incremental
        alwaysExecuteFiles := alwaysExecuteFiles
        files := files?.getD env.contextInputs
        useFreezer := options.useFreezer }

/-- An environment in which every target exists and paths are already
absolute and real, over a one-file project. -/
def trivialRenderEnv : RenderProjectEnv :=
  { contextInputs := ["a.qmd"]
    cwd := ""
    isAbsolutePath := fun _ => true
    targetExists := fun _ => true
    realPath := id
    hasIncrementalRenderAll := false
    incrementalRenderAll := false }

/-- As `trivialRenderEnv` but with the two-file input set of the worked
example. -/
def twoFileRenderEnv : RenderProjectEnv :=
  { trivialRenderEnv with contextInputs := ["a.qmd", "b.qmd"] }

/-- The setup produced when a.qmd is explicitly requested with the
freezer off. -/
def sampleSetup : RenderSetup :=
  { incremental := true
    alwaysExecuteFiles := some ["a.qmd"]
    files := ["a.qmd"]
    useFreezer := false }

/-! ## Output relocation filesystem model (project.ts lines 313–456)

A filesystem is a list of file entries, each a segmented path with its
contents.  Directories are implicit: a directory exists when some file
entry lies at or under its path, which is all the relocation code
observes through `existsSync`, recursive `removeSync`, `renameSync` and
`copySync`; `ensureDirSync` is a no-op in this model. -/

/-- A filesystem path, as its list of segments. -/
abbrev Path : Type := List String

/-- Filesystem contents: file entries with their data. -/
abbrev FsEntries : Type := List (Path × String)

/-- A path lies at or under a directory when the directory's path is a
prefix of it. -/
def underDir (d p : Path) : Prop := d <+: p

instance (d p : Path) : Decidable (underDir d p) :=
  inferInstanceAs (Decidable (d <+: p))

/-- Deno `existsSync`: a path exists when a file entry lies at or under
it. -/
def existsPath (fs : FsEntries) (p : Path) : Prop :=
  ∃ e ∈ fs, underDir p e.1

instance (fs : FsEntries) (p : Path) : Decidable (existsPath fs p) :=
  List.decidableBEx _ fs

/-- Deno `removeSync(p, recursive)`: drop every entry at or under `p`. -/
def removeRecursive (fs : FsEntries) (p : Path) : FsEntries :=
  fs.filter fun e => decide (¬ underDir p e.1)

/-- Rebase a path from under `src` to under `dst`. -/
def reroot (src dst p : Path) : Path := dst ++ p.drop src.length

/-- Deno `renameSync` on a directory: entries under `src` reappear under
`dst`; the relocation code always removes `dst` first. -/
def renameTree (fs : FsEntries) (src dst : Path) : FsEntries :=
  (fs.filter fun e => decide (¬ underDir src e.1))
    ++ (fs.filter fun e => decide (underDir src e.1)).map
        (fun e => (reroot src dst e.1, e.2))

/-- `copySync` on a directory: entries under `src` are duplicated under
`dst`. -/
def copyTree (fs : FsEntries) (src dst : Path) : FsEntries :=
  fs ++ (fs.filter fun e => decide (underDir src e.1)).map
      (fun e => (reroot src dst e.1, e.2))

/-- Deno `renameSync` on a single file: the entry at `src` moves to
`dst`, replacing any entry previously at `dst`. -/
def renameFile (fs : FsEntries) (src dst : Path) : FsEntries :=
  (fs.filter fun e => decide (e.1 ≠ src ∧ e.1 ≠ dst))
    ++ (fs.filter fun e => decide (e.1 = src)).map (fun e => (dst, e.2))

/-- Placement phase of `relocateDir`: after the target has been
cleared, if the source directory exists it is copied or renamed to the
target (project.ts lines 320–328). -/
def relocatePlace (srcDir targetDir : Path) (fs1 : FsEntries)
    (copy : Bool) : FsEntries :=
  if existsPath fs1 srcDir then
    if copy then copyTree fs1 srcDir targetDir
    else renameTree fs1 srcDir targetDir
  else fs1

/-- Embedding of `relocateDir(dir, copy)` from `renderProject`
(project.ts lines 315–329): if the target directory exists it is removed
recursively; then, if the source directory exists, it is copied or
renamed to the target. -/
def relocateDir (projDir outputDirAbsolute : Path) (fs : FsEntries)
    (dir : Path) (copy : Bool) : FsEntries :=
  let targetDir := outputDirAbsolute ++ dir
  let fs1 := if existsPath fs targetDir then removeRecursive fs targetDir else fs
  relocatePlace (projDir ++ dir) targetDir fs1 copy

/-- Embedding of the library-directory merge of `renderProject`
(project.ts lines 404–456), with the freezer copy omitted (it writes
only under the freezer directories, never under the output directory).
`subdirs` lists the directory entries `readDirSync` finds in the source
library directory.  When incremental, each source subdirectory is
relocated individually (copied when `keepLibsDir`, else moved) and the
emptied source library directory is removed; otherwise the whole
library directory is relocated in one step. -/
def mergeLibDir (projDir outputDirAbsolute : Path) (fs : FsEntries)
    (libDir : Path) (libsIncremental keepLibsDir : Bool)
    (subdirs : List String) : FsEntries :=
  if existsPath fs (projDir ++ libDir) then
    if libsIncremental then
      let fs1 := subdirs.foldl
        (fun acc sub =>
          relocateDir projDir outputDirAbsolute acc (libDir ++ [sub])
            keepLibsDir)
        fs
      if !keepLibsDir then removeRecursive fs1 (projDir ++ libDir) else fs1
    else
      relocateDir projDir outputDirAbsolute fs libDir keepLibsDir
  else fs

/-! ## Resource filtering (project.ts lines 354–401, 458–466)

These two passes run over string paths, mirroring the JS code:
`file.startsWith(join(projDir, support))` and
`outputFiles.includes(resource)`. -/

/-- JS `String.prototype.startsWith`: character-level prefix test. -/
def jsStartsWith (s pre : String) : Prop := pre.data <+: s.data

instance (s pre : String) : Decidable (jsStartsWith s pre) :=
  inferInstanceAs (Decidable (pre.data <+: s.data))

/-- Per-file resource filter (project.ts lines 375–391): from the
expanded include set, drop entries of the exclude set and entries that
start with the absolute path of one of the file's supporting
directories (an absent supporting list behaves as the empty list). -/
def filterResourceFiles (includeFiles excludeFiles : List String)
    (projDir : String) (supporting : List String) : List String :=
  includeFiles.filter fun file =>
    decide (¬ file ∈ excludeFiles
      ∧ ¬ ∃ support ∈ supporting, jsStartsWith file (pathJoin projDir support))

/-- Output-file pass (project.ts lines 458–466): after all files are
collected, drop any resource equal to a tracked output file of the
render. -/
def filterOutputFiles (outputFiles resources : List String) : List String :=
  resources.filter fun r => decide (¬ r ∈ outputFiles)

/-! ## Resource copy loop (project.ts lines 475–486) -/

/-- A regular file exists exactly at this path. -/
def isFileAt (fs : FsEntries) (p : Path) : Prop := ∃ c, (p, c) ∈ fs

instance (fs : FsEntries) (p : Path) : Decidable (isFileAt fs p) := by
  unfold isFileAt
  have : (∃ c, (p, c) ∈ fs) ↔ ∃ e ∈ fs, e.1 = p := by
    constructor
    · rintro ⟨c, hc⟩
      exact ⟨(p, c), hc, rfl⟩
    · rintro ⟨⟨q, c⟩, he, hq⟩
      subst hq
      exact ⟨c, he⟩
  exact decidable_of_iff _ this.symm

/-- `copyResourceFile`: copy the file's contents to the destination,
replacing whatever was there. -/
def copyResourceFile (fs : FsEntries) (src dst : Path) : FsEntries :=
  (fs.filter fun e => decide (e.1 ≠ dst))
    ++ (fs.filter fun e => decide (e.1 = src)).map (fun e => (dst, e.2))

/-- One iteration of the resource copy loop of `renderProject`
(project.ts lines 476–486) for a resource at path `rel` relative to the
project directory: an existing regular file is copied to the matching
relative path under the output directory; a missing resource produces a
warning only when nothing exists at the destination path either.  The
second component collects the warnings; no branch throws. -/
def copyResourceStep (projDir outputDirAbsolute : Path) (fs : FsEntries)
    (rel : Path) : FsEntries × List Path :=
  if existsPath fs (projDir ++ rel) then
    if isFileAt fs (projDir ++ rel) then
      (copyResourceFile fs (projDir ++ rel) (outputDirAbsolute ++ rel), [])
    else (fs, [])
  else if ¬ existsPath fs (outputDirAbsolute ++ rel) then (fs, [rel])
  else (fs, [])

/-! ## Process-scoped project root (QUARTO_PROJECT_DIR) -/

/-- Environment-variable name published for the duration of a project
render. -/
def kQuartoProjectDir : String := "QUARTO_PROJECT_DIR"

/-- Process environment as a partial map from variable names to values. -/
def EnvMap : Type := String → Option String

/-- Deno.env.set. -/
def envSet (e : EnvMap) (k v : String) : EnvMap :=
  fun x => if x = k then some v else e x

/-- Deno.env.delete. -/
def envDelete (e : EnvMap) (k : String) : EnvMap :=
  fun x => if x = k then none else e x

/-- Embedding of the env-variable discipline of `renderProject`
(project.ts lines 300, 301–523): set `QUARTO_PROJECT_DIR`, run the body
(which observes the published environment and either returns or
throws), and in the `finally` clause delete the variable on both exit
paths.  The returned pair is the body's outcome and the final process
environment. -/
def renderProjectEnvRun {ε α : Type} (env0 : EnvMap) (projDir : String)
    (body : EnvMap → Except ε α) : Except ε α × EnvMap :=
  let env1 := envSet env0 kQuartoProjectDir projDir
  let result := body env1
  (result, envDelete env1 kQuartoProjectDir)

/-- Sample persisted entry used to instantiate the cache theorems. -/
def sampleIndexEntry : InputTargetIndex :=
  { title := some "Sample", markdown := { headingText := none }, formats := [] }

/-- Cache state of the worked example: cache mtime 100, input mtime 50,
configuration mtime 40, parseable contents. -/
def freshCacheState : ProjectInputState :=
  { inputFileExists := true
    inputIsDirectory := false
    engineClaims := true
    fs :=
      { indexExists := true
        inputMtime := some 50
        indexMtime := some 100
        projConfigFile := some (some 40)
        indexParse := some sampleIndexEntry }
    renderFormats := []
    partitionedMarkdown := { headingText := some "Heading" } }

/-- Cache state of the worked example: cache mtime 100, input mtime 150. -/
def staleCacheState : ProjectInputState :=
  { freshCacheState with
    fs := { freshCacheState.fs with inputMtime := some 150 } }

/-! ## Theorems -/

theorem underDir_append (d rest : Path) : underDir d (d ++ rest) :=
  List.prefix_append d rest

theorem not_underDir_of_incomparable {a b p : Path}
    (hab : ¬ a <+: b) (hba : ¬ b <+: a) (ha : underDir a p) :
    ¬ underDir b p := by
  intro hb
  rcases List.prefix_or_prefix_of_prefix ha hb with h | h
  · exact hab h
  · exact hba h

theorem mem_removeRecursive {fs : FsEntries} {d : Path} {e : Path × String} :
    e ∈ removeRecursive fs d ↔ e ∈ fs ∧ ¬ underDir d e.1 := by
  simp [removeRecursive]

theorem reroot_append (src dst rest : Path) :
    reroot src dst (src ++ rest) = dst ++ rest := by
  simp [reroot, List.drop_left]

theorem mem_relocatePlace_preserved {src tgt : Path}
    {fs1 : FsEntries} {copy : Bool} {p : Path} {c : String}
    (htgt : ¬ underDir tgt p) (hsrc : ¬ underDir src p) :
    ((p, c) ∈ relocatePlace src tgt fs1 copy ↔ (p, c) ∈ fs1) := by
  have hmap : (p, c) ∉ (fs1.filter fun e => decide (underDir src e.1)).map
      (fun e => (reroot src tgt e.1, e.2)) := by
    intro hmem
    rcases List.mem_map.1 hmem with ⟨e, he, heq⟩
    have hu : underDir src e.1 :=
      of_decide_eq_true (List.mem_filter.1 he).2
    rcases hu with ⟨t, ht⟩
    have hp : p = tgt ++ t := by
      have hr : reroot src tgt e.1 = tgt ++ t := by
        rw [← ht, reroot_append]
      rw [← hr]
      exact (congrArg Prod.fst heq).symm
    exact htgt (hp ▸ underDir_append tgt t)
  unfold relocatePlace
  split
  · split
    · rw [copyTree, List.mem_append]
      exact ⟨fun h => h.resolve_right (fun hh => hmap hh),
        fun h => Or.inl h⟩
    · rw [renameTree, List.mem_append]
      constructor
      · rintro (h | h)
        · exact (List.mem_filter.1 h).1
        · exact absurd h hmap
      · intro h
        exact Or.inl (List.mem_filter.2 ⟨h, decide_eq_true hsrc⟩)
  · exact Iff.rfl

theorem mem_relocatePlace_target {src tgt : Path}
    {fs1 : FsEntries} {copy : Bool} {rest : Path} {c : String}
    (hclean : (tgt ++ rest, c) ∉ fs1) :
    ((tgt ++ rest, c) ∈ relocatePlace src tgt fs1 copy ↔
      (src ++ rest, c) ∈ fs1) := by
  have hmap : ((tgt ++ rest, c) ∈
      (fs1.filter fun e => decide (underDir src e.1)).map
        (fun e => (reroot src tgt e.1, e.2))) ↔ ((src ++ rest, c) ∈ fs1) := by
    rw [List.mem_map]
    constructor
    · rintro ⟨e, he, heq⟩
      have hu : underDir src e.1 :=
        of_decide_eq_true (List.mem_filter.1 he).2
      rcases hu with ⟨t, ht⟩
      have hr : reroot src tgt e.1 = tgt ++ t := by
        rw [← ht, reroot_append]
      have hts : t = rest := by
        have hcat : tgt ++ t = tgt ++ rest := by
          rw [← hr]
          exact congrArg Prod.fst heq
        exact List.append_cancel_left hcat
      have he1 : e.1 = src ++ rest := by rw [← ht, hts]
      have hc : e.2 = c := congrArg Prod.snd heq
      have heq2 : e = (src ++ rest, c) := by
        rcases e with ⟨e1, e2⟩
        simp only at he1 hc
        rw [he1, hc]
      rw [← heq2]
      exact (List.mem_filter.1 he).1
    · intro h
      refine ⟨(src ++ rest, c), List.mem_filter.2 ⟨h, ?_⟩, ?_⟩
      · exact decide_eq_true (underDir_append src rest)
      · rw [reroot_append]
  unfold relocatePlace
  split
  · rename_i hex
    split
    · rw [copyTree, List.mem_append, hmap]
      exact ⟨fun h => h.resolve_left (fun hh => absurd hh hclean),
        fun h => Or.inr h⟩
    · rw [renameTree, List.mem_append, hmap]
      constructor
      · rintro (h | h)
        · exact absurd (List.mem_filter.1 h).1 hclean
        · exact h
      · exact fun h => Or.inr h
  · rename_i hnex
    constructor
    · intro h
      exact absurd h hclean
    · intro h
      exact absurd ⟨_, h, underDir_append src rest⟩ hnex

theorem mem_cleared_target {fs : FsEntries} {tgt : Path}
    {rest : Path} {c : String} :
    (tgt ++ rest, c) ∉
      (if existsPath fs tgt then removeRecursive fs tgt else fs) := by
  split
  · rw [mem_removeRecursive]
    exact fun h => h.2 (underDir_append tgt rest)
  · rename_i hne
    exact fun h => hne ⟨_, h, underDir_append tgt rest⟩

theorem mem_cleared_of_not_under {fs : FsEntries} {tgt : Path}
    {p : Path} {c : String} (htgt : ¬ underDir tgt p) :
    ((p, c) ∈ (if existsPath fs tgt then removeRecursive fs tgt else fs) ↔
      (p, c) ∈ fs) := by
  split
  · rw [mem_removeRecursive]
    exact ⟨fun h => h.1, fun h => ⟨h, htgt⟩⟩
  · exact Iff.rfl

theorem mem_relocateDir_preserved {projDir outAbs dir : Path}
    {fs : FsEntries} {copy : Bool} {p : Path} {c : String}
    (htgt : ¬ underDir (outAbs ++ dir) p)
    (hsrc : ¬ underDir (projDir ++ dir) p) :
    ((p, c) ∈ relocateDir projDir outAbs fs dir copy ↔ (p, c) ∈ fs) := by
  unfold relocateDir
  rw [mem_relocatePlace_preserved htgt hsrc]
  exact mem_cleared_of_not_under htgt

theorem mem_relocateDir_target {projDir outAbs dir : Path}
    {fs : FsEntries} {copy : Bool} {rest : Path} {c : String}
    (hd1 : ¬ (projDir ++ dir) <+: (outAbs ++ dir))
    (hd2 : ¬ (outAbs ++ dir) <+: (projDir ++ dir)) :
    (((outAbs ++ dir) ++ rest, c) ∈ relocateDir projDir outAbs fs dir copy ↔
      ((projDir ++ dir) ++ rest, c) ∈ fs) := by
  unfold relocateDir
  rw [mem_relocatePlace_target mem_cleared_target]
  apply mem_cleared_of_not_under
  exact not_underDir_of_incomparable hd1 hd2 (underDir_append _ _)

/-- C4: relocation is last-render-wins.  For a relocated directory, any
directory already present at the destination is removed recursively
before the new content is placed, so an entry appears under the target
exactly when the source held the corresponding entry — no merge with
stale content, no leftovers.  For the primary artifact, the rename
replaces the destination file: afterwards the destination holds exactly
the moved content (at most one artifact per output-relative path) and
the source entry is gone. -/
theorem relocateDir_last_render_wins
    (projDir outAbs dir : Path) (fs : FsEntries) (copy : Bool)
    (hd1 : ¬ (projDir ++ dir) <+: (outAbs ++ dir))
    (hd2 : ¬ (outAbs ++ dir) <+: (projDir ++ dir)) :
    (∀ rest c,
      (((outAbs ++ dir) ++ rest, c) ∈ relocateDir projDir outAbs fs dir copy
        ↔ ((projDir ++ dir) ++ rest, c) ∈ fs))
    ∧ (∀ (fs2 : FsEntries) (src dst : Path) (c : String), src ≠ dst →
        (((dst, c) ∈ renameFile fs2 src dst ↔ (src, c) ∈ fs2)
          ∧ (src, c) ∉ renameFile fs2 src dst)) := by
  constructor
  · intro rest c
    exact mem_relocateDir_target hd1 hd2
  · intro fs2 src dst c hne
    constructor
    · rw [renameFile, List.mem_append]
      constructor
      · rintro (h | h)
        · have hdec := of_decide_eq_true (List.mem_filter.1 h).2
          exact absurd rfl hdec.2
        · rcases List.mem_map.1 h with ⟨e, he, heq⟩
          have he1 : e.1 = src := of_decide_eq_true (List.mem_filter.1 he).2
          have hc : e.2 = c := congrArg Prod.snd heq
          have heq2 : e = (src, c) := by
            rcases e with ⟨e1, e2⟩
            simp only at he1 hc
            rw [he1, hc]
          rw [← heq2]
          exact (List.mem_filter.1 he).1
      · intro h
        refine Or.inr (List.mem_map.2 ⟨(src, c), List.mem_filter.2 ⟨h, ?_⟩, rfl⟩)
        exact decide_eq_true rfl
    · rw [renameFile, List.mem_append]
      rintro (h | h)
      · have hdec := of_decide_eq_true (List.mem_filter.1 h).2
        exact hdec.1 rfl
      · rcases List.mem_map.1 h with ⟨e, he, heq⟩
        exact hne (congrArg Prod.fst heq).symm

/-- C4 witness: relocating the figs directory into the output replaces
the stale entry left by a prior run with the freshly rendered one. -/
theorem relocateDir_last_render_wins_witness :
    ((["proj", "_site", "figs", "new"], "fresh") ∈
        relocateDir ["proj"] ["proj", "_site"]
          [(["proj", "_site", "figs", "old"], "stale"),
           (["proj", "figs", "new"], "fresh")] ["figs"] false)
    ∧ ((["proj", "_site", "figs", "old"], "stale") ∉
        relocateDir ["proj"] ["proj", "_site"]
          [(["proj", "_site", "figs", "old"], "stale"),
           (["proj", "figs", "new"], "fresh")] ["figs"] false) := by
  have h := relocateDir_last_render_wins ["proj"] ["proj", "_site"] ["figs"]
    [(["proj", "_site", "figs", "old"], "stale"),
     (["proj", "figs", "new"], "fresh")] false (by decide) (by decide)
  constructor
  · exact (h.1 ["new"] "fresh").2 (by decide)
  · intro hmem
    exact absurd ((h.1 ["old"] "stale").1 hmem) (by decide)

theorem incomparable_extend {a b : Path}
    (hab : ¬ a <+: b) (hba : ¬ b <+: a) (x y : Path) :
    ¬ (a ++ x) <+: (b ++ y) := by
  intro h
  have h1 : a <+: b ++ y := (List.prefix_append a x).trans h
  have h2 : b <+: b ++ y := List.prefix_append b y
  rcases List.prefix_or_prefix_of_prefix h1 h2 with h' | h'
  · exact hab h'
  · exact hba h'

theorem not_under_sibling {o l : Path} {s a : String}
    (h : s ≠ a) (rest : Path) :
    ¬ underDir (o ++ (l ++ [s])) (o ++ (l ++ (a :: rest))) := by
  intro hu
  have h1 := (List.prefix_append_right_inj o).1 hu
  have h2 := (List.prefix_append_right_inj l).1 h1
  rw [List.cons_prefix_cons] at h2
  exact h h2.1

theorem not_under_cross {a b l : Path}
    (hab : ¬ (a ++ l) <+: (b ++ l)) (hba : ¬ (b ++ l) <+: (a ++ l))
    (x y : Path) : ¬ underDir (a ++ (l ++ x)) (b ++ (l ++ y)) := by
  intro hu
  rw [← List.append_assoc, ← List.append_assoc] at hu
  exact incomparable_extend hab hba x y hu

theorem mem_foldl_relocate_preserved {projDir outAbs libDir : Path}
    {keep : Bool} {p : Path} {c : String} :
    ∀ (subs : List String) (fs : FsEntries),
    (∀ s ∈ subs, ¬ underDir (outAbs ++ (libDir ++ [s])) p
      ∧ ¬ underDir (projDir ++ (libDir ++ [s])) p) →
    ((p, c) ∈ subs.foldl
        (fun acc sub => relocateDir projDir outAbs acc (libDir ++ [sub]) keep)
        fs
      ↔ (p, c) ∈ fs)
  | [], _, _ => Iff.rfl
  | s :: ss, fs, h => by
    rw [List.foldl_cons]
    rw [mem_foldl_relocate_preserved ss _
      (fun s' hs' => h s' (List.mem_cons_of_mem _ hs'))]
    exact mem_relocateDir_preserved (h s (List.mem_cons_self s ss)).1
      (h s (List.mem_cons_self s ss)).2

theorem mem_foldl_relocate_target {projDir outAbs libDir : Path}
    {keep : Bool} {A : String} {rest : Path} {c : String}
    (hd1 : ¬ (projDir ++ libDir) <+: (outAbs ++ libDir))
    (hd2 : ¬ (outAbs ++ libDir) <+: (projDir ++ libDir)) :
    ∀ (subs : List String) (fs : FsEntries), subs.Nodup → A ∈ subs →
    (((outAbs ++ (libDir ++ [A])) ++ rest, c) ∈ subs.foldl
        (fun acc sub => relocateDir projDir outAbs acc (libDir ++ [sub]) keep)
        fs
      ↔ ((projDir ++ (libDir ++ [A])) ++ rest, c) ∈ fs)
  | [], _, _, hA => absurd hA (List.not_mem_nil A)
  | s :: ss, fs, hnd, hA => by
    rw [List.foldl_cons]
    rcases eq_or_ne s A with hsA | hsA
    · subst hsA
      have hsnotin : s ∉ ss := (List.nodup_cons.1 hnd).1
      have hdA1 : ¬ (projDir ++ (libDir ++ [s])) <+: (outAbs ++ (libDir ++ [s])) := by
        rw [← List.append_assoc, ← List.append_assoc]
        exact incomparable_extend hd1 hd2 [s] [s]
      have hdA2 : ¬ (outAbs ++ (libDir ++ [s])) <+: (projDir ++ (libDir ++ [s])) := by
        rw [← List.append_assoc, ← List.append_assoc]
        exact incomparable_extend hd2 hd1 [s] [s]
      rw [mem_foldl_relocate_preserved ss _ ?side]
      case side =>
        intro s' hs'
        have hne : s' ≠ s := fun hh => hsnotin (hh ▸ hs')
        constructor
        · simp only [List.append_assoc, List.singleton_append]
          exact not_under_sibling hne rest
        · simp only [List.append_assoc, List.singleton_append]
          exact not_under_cross hd1 hd2 [s'] (s :: rest)
      exact mem_relocateDir_target hdA1 hdA2
    · rcases List.mem_cons.1 hA with hAs | hA'
      · exact absurd hAs.symm hsA
      have hne : s ≠ A := hsA
      rw [mem_foldl_relocate_target hd1 hd2 ss _ (List.nodup_cons.1 hnd).2 hA']
      simp only [List.append_assoc, List.singleton_append]
      refine mem_relocateDir_preserved ?t ?s
      case t => exact not_under_cross hd2 hd1 [s] (A :: rest)
      case s => exact not_under_sibling hne rest

/-- C6: the two library-merge modes.  Incrementally merging the listed
source subdirectories leaves any other subdirectory already present in
the output library directory untouched, while each listed subdirectory
is individually relocated (its output content afterwards mirrors the
source).  A full (non-incremental) merge replaces the output library
directory wholesale: afterwards it mirrors the source library directory,
so content under a subdirectory absent from the source — such as an
unrelated pre-existing B — is removed. -/
theorem mergeLibDir_incremental_vs_full
    (projDir outAbs libDir : Path) (fs : FsEntries) (keep : Bool)
    (subdirs : List String)
    (hd1 : ¬ (projDir ++ libDir) <+: (outAbs ++ libDir))
    (hd2 : ¬ (outAbs ++ libDir) <+: (projDir ++ libDir)) :
    (∀ (B : String) (rest : Path) (c : String), B ∉ subdirs →
      (((outAbs ++ (libDir ++ [B])) ++ rest, c)
          ∈ mergeLibDir projDir outAbs fs libDir true keep subdirs
        ↔ ((outAbs ++ (libDir ++ [B])) ++ rest, c) ∈ fs))
    ∧ (subdirs.Nodup → ∀ (A : String) (rest : Path) (c : String),
        A ∈ subdirs → existsPath fs (projDir ++ libDir) →
        (((outAbs ++ (libDir ++ [A])) ++ rest, c)
            ∈ mergeLibDir projDir outAbs fs libDir true keep subdirs
          ↔ ((projDir ++ (libDir ++ [A])) ++ rest, c) ∈ fs))
    ∧ (existsPath fs (projDir ++ libDir) → ∀ (rest : Path) (c : String),
        (((outAbs ++ libDir) ++ rest, c)
            ∈ mergeLibDir projDir outAbs fs libDir false keep subdirs
          ↔ ((projDir ++ libDir) ++ rest, c) ∈ fs)) := by
  have hnotunder : ∀ (x : String) (rest : Path),
      ¬ underDir (projDir ++ libDir) ((outAbs ++ (libDir ++ [x])) ++ rest) := by
    intro x rest
    have hout : underDir (outAbs ++ libDir) ((outAbs ++ (libDir ++ [x])) ++ rest) := by
      simp only [List.append_assoc]
      rw [← List.append_assoc]
      exact underDir_append _ _
    exact not_underDir_of_incomparable hd2 hd1 hout
  refine ⟨?part1, ?part2, ?part3⟩
  case part1 =>
    intro B rest c hB
    have hside : ∀ s ∈ subdirs,
        ¬ underDir (outAbs ++ (libDir ++ [s])) ((outAbs ++ (libDir ++ [B])) ++ rest)
        ∧ ¬ underDir (projDir ++ (libDir ++ [s])) ((outAbs ++ (libDir ++ [B])) ++ rest) := by
      intro s hs
      have hne : s ≠ B := fun hh => hB (hh ▸ hs)
      constructor
      · simp only [List.append_assoc, List.singleton_append]
        exact not_under_sibling hne rest
      · simp only [List.append_assoc, List.singleton_append]
        exact not_under_cross hd1 hd2 [s] (B :: rest)
    simp only [mergeLibDir]
    split
    · split
      · split
        · rw [mem_removeRecursive, mem_foldl_relocate_preserved subdirs fs hside]
          exact ⟨fun h => h.1, fun h => ⟨h, hnotunder B rest⟩⟩
        · exact mem_foldl_relocate_preserved subdirs fs hside
      · rename_i hcontra
        exact absurd trivial hcontra
    · exact Iff.rfl
  case part2 =>
    intro hnd A rest c hA hex
    have hfold := @mem_foldl_relocate_target projDir outAbs libDir keep A
      rest c hd1 hd2 subdirs fs hnd hA
    simp only [mergeLibDir]
    split
    · split
      · split
        · rw [mem_removeRecursive, hfold]
          exact ⟨fun h => h.1, fun h => ⟨h, hnotunder A rest⟩⟩
        · exact hfold
      · rename_i hcontra
        exact absurd trivial hcontra
    · rename_i hne
      exact absurd hex hne
  case part3 =>
    intro hex rest c
    simp only [mergeLibDir]
    split
    · split
      · rename_i hcontra
        simp at hcontra
      · exact mem_relocateDir_target hd1 hd2
    · rename_i hne
      exact absurd hex hne

/-- C6 witness: over a project with source library content only under
subdirectory A and stale output content under unrelated subdirectory B,
an incremental merge of A keeps B's content and installs A's, while a
full merge removes B's content. -/
theorem mergeLibDir_incremental_vs_full_witness :
    ((["q", "_site", "libs", "B", "b.js"], "old") ∈
        mergeLibDir ["q"] ["q", "_site"]
          [(["q", "libs", "A", "a.js"], "new"),
           (["q", "_site", "libs", "B", "b.js"], "old")]
          ["libs"] true false ["A"])
    ∧ ((["q", "_site", "libs", "A", "a.js"], "new") ∈
        mergeLibDir ["q"] ["q", "_site"]
          [(["q", "libs", "A", "a.js"], "new"),
           (["q", "_site", "libs", "B", "b.js"], "old")]
          ["libs"] true false ["A"])
    ∧ ((["q", "_site", "libs", "B", "b.js"], "old") ∉
        mergeLibDir ["q"] ["q", "_site"]
          [(["q", "libs", "A", "a.js"], "new"),
           (["q", "_site", "libs", "B", "b.js"], "old")]
          ["libs"] false false ["A"]) := by
  have h := mergeLibDir_incremental_vs_full ["q"] ["q", "_site"] ["libs"]
    [(["q", "libs", "A", "a.js"], "new"),
     (["q", "_site", "libs", "B", "b.js"], "old")]
    false ["A"] (by decide) (by decide)
  refine ⟨?_, ?_, ?_⟩
  · exact (h.1 "B" ["b.js"] "old" (by decide)).2 (by decide)
  · exact (h.2.1 (by decide) "A" ["a.js"] "new" (by decide) (by decide)).2
      (by decide)
  · intro hmem
    exact absurd ((h.2.2 (by decide) ["B", "b.js"] "old").1 hmem) (by decide)

/-- C5: a relocated file's final resource set (per-file filter followed
by the output-file pass) never contains a path equal to a tracked output
file of the render, nor a path that is — or lies under — one of the
file's own supporting directories. -/
theorem resourceFiles_exclusion
    (includeFiles excludeFiles : List String) (projDir : String)
    (supporting outputFiles : List String) (r : String)
    (hr : r ∈ filterOutputFiles outputFiles
      (filterResourceFiles includeFiles excludeFiles projDir supporting)) :
    r ∉ outputFiles
    ∧ ∀ support ∈ supporting,
        r ≠ pathJoin projDir support
        ∧ ∀ rest, r ≠ pathJoin projDir support ++ "/" ++ rest := by
  rw [filterOutputFiles, List.mem_filter] at hr
  obtain ⟨hr1, hr2⟩ := hr
  have hout : r ∉ outputFiles := of_decide_eq_true hr2
  rw [filterResourceFiles, List.mem_filter] at hr1
  have hsup := (of_decide_eq_true hr1.2).2
  refine ⟨hout, ?_⟩
  intro support hs
  constructor
  · intro heq
    apply hsup
    refine ⟨support, hs, ?_⟩
    rw [heq]
    exact List.prefix_refl _
  · intro rest heq
    apply hsup
    refine ⟨support, hs, ?_⟩
    rw [heq]
    show (pathJoin projDir support).data <+:
      (pathJoin projDir support ++ "/" ++ rest).data
    exact ⟨"/".data ++ rest.data, by simp [String.data_append]⟩

/-- C5 witness: with output `p/out.html` and supporting directory
`doc_files`, the surviving resource `p/img.png` is neither an output
file nor under the supporting directory; the filters admit it while
dropping `p/out.html` and `p/doc_files/lib.js`. -/
theorem resourceFiles_exclusion_witness :
    ("p/img.png" ∉ ["p/out.html"]
      ∧ ∀ support ∈ ["doc_files"],
          "p/img.png" ≠ pathJoin "p" support
          ∧ ∀ rest, "p/img.png" ≠ pathJoin "p" support ++ "/" ++ rest)
    ∧ filterOutputFiles ["p/out.html"]
        (filterResourceFiles ["p/doc_files/lib.js", "p/out.html", "p/img.png"]
          [] "p" ["doc_files"]) = ["p/img.png"] := by
  refine ⟨resourceFiles_exclusion
    ["p/doc_files/lib.js", "p/out.html", "p/img.png"] [] "p"
    ["doc_files"] ["p/out.html"] "p/img.png" (by decide), by decide⟩

/-- C9 counterexample: a declared resource that is missing on disk
produces no warning when a file already exists at its destination path
(project.ts line 483 guards the warning with `!existsSync(destPath)`),
contradicting the claim that every missing resource warns. -/
theorem copyResource_missing_warning_counterexample :
    (copyResourceStep ["p"] ["p", "_site"]
        [(["p", "_site", "img.png"], "cached")] ["img.png"]).2 = []
    ∧ ¬ existsPath [(["p", "_site", "img.png"], "cached")]
        (["p"] ++ ["img.png"]) := by
  decide

/-- C9 amended: a missing resource warns exactly when nothing exists at
its destination path either; in every case the step returns normally
(no failure); an existing regular-file resource is copied to the
matching relative path under the output directory with no warning. -/
theorem copyResourceStep_behavior (projDir outAbs : Path)
    (fs : FsEntries) (rel : Path) :
    (¬ existsPath fs (projDir ++ rel) → ¬ existsPath fs (outAbs ++ rel) →
      copyResourceStep projDir outAbs fs rel = (fs, [rel]))
    ∧ (¬ existsPath fs (projDir ++ rel) → existsPath fs (outAbs ++ rel) →
      copyResourceStep projDir outAbs fs rel = (fs, []))
    ∧ (∀ c, (projDir ++ rel, c) ∈ fs →
        (outAbs ++ rel, c) ∈ (copyResourceStep projDir outAbs fs rel).1
        ∧ (copyResourceStep projDir outAbs fs rel).2 = []) := by
  refine ⟨?w, ?skip, ?copy⟩
  case w =>
    intro h1 h2
    unfold copyResourceStep
    rw [if_neg h1, if_pos h2]
  case skip =>
    intro h1 h2
    unfold copyResourceStep
    rw [if_neg h1, if_neg (not_not_intro h2)]
  case copy =>
    intro c hc
    have hex : existsPath fs (projDir ++ rel) :=
      ⟨(projDir ++ rel, c), hc, List.prefix_refl _⟩
    have hf : isFileAt fs (projDir ++ rel) := ⟨c, hc⟩
    unfold copyResourceStep
    rw [if_pos hex, if_pos hf]
    constructor
    · show (outAbs ++ rel, c) ∈
        copyResourceFile fs (projDir ++ rel) (outAbs ++ rel)
      rw [copyResourceFile, List.mem_append]
      right
      exact List.mem_map.2
        ⟨(projDir ++ rel, c), List.mem_filter.2 ⟨hc, decide_eq_true rfl⟩, rfl⟩
    · rfl

/-- C9 amended witness: a missing resource with a missing destination
warns; an existing file resource lands at the matching relative path in
the output directory. -/
theorem copyResourceStep_behavior_witness :
    copyResourceStep ["p"] ["p", "_site"] [] ["img.png"]
      = ([], [["img.png"]])
    ∧ ((["p", "_site", "img.png"], "data") ∈
        (copyResourceStep ["p"] ["p", "_site"]
          [(["p", "img.png"], "data")] ["img.png"]).1) := by
  constructor
  · exact (copyResourceStep_behavior ["p"] ["p", "_site"] [] ["img.png"]).1
      (by decide) (by decide)
  · exact ((copyResourceStep_behavior ["p"] ["p", "_site"]
      [(["p", "img.png"], "data")] ["img.png"]).2.2 "data" (by decide)).1

/-- C1: with both mtimes available and a parseable cache file (and, when a
project configuration file exists, an available config mtime), the cache
entry is reused if and only if the cache file exists and its mtime is ≥
the input's mtime and ≥ the configuration's mtime; on reuse
`inputTargetIndex` returns the persisted entry without regenerating, and
on any violation it regenerates and re-persists the entry. -/
theorem readInputTargetIndex_reuse_iff
    (st : ProjectInputState) (im xm : Nat) (idx : InputTargetIndex)
    (him : st.fs.inputMtime = some im) (hxm : st.fs.indexMtime = some xm)
    (hparse : st.fs.indexParse = some idx)
    (hcfg : st.fs.projConfigFile ≠ some none) :
    (readInputTargetIndex st.fs = some idx ↔
      st.fs.indexExists = true ∧ im ≤ xm ∧
        ∀ pm, st.fs.projConfigFile = some (some pm) → pm ≤ xm)
    ∧ (readInputTargetIndex st.fs = some idx →
        st.inputFileExists = true → st.inputIsDirectory = false →
        st.engineClaims = true →
        inputTargetIndex st = { result := some idx, persisted := none })
    ∧ (readInputTargetIndex st.fs ≠ some idx →
        st.inputFileExists = true → st.inputIsDirectory = false →
        st.engineClaims = true →
        inputTargetIndex st =
          { result := some (regeneratedIndex st),
            persisted := some (regeneratedIndex st) }) := by
  obtain ⟨fe, dir, eng, ⟨ie, imo, xmo, cfg, par⟩, rf, pm⟩ := st
  simp only at him hxm hparse hcfg
  subst him hxm hparse
  constructor
  · simp only [readInputTargetIndex, projModOf]
    cases ie with
    | false => simp
    | true =>
      simp only [if_true]
      rcases cfg with _ | ⟨_ | pmv⟩
      · simp [Option.bind]
      · exact absurd rfl hcfg
      · simp [Option.bind]
  · constructor
    · intro hread hfe hdir heng
      subst hfe hdir heng
      simp [inputTargetIndex, hread]
    · intro hread hfe hdir heng
      subst hfe hdir heng
      have hnone : readInputTargetIndex
          ⟨ie, some im, some xm, cfg, some idx⟩ = none := by
        revert hread
        simp only [readInputTargetIndex]
        cases ie with
        | false => simp
        | true =>
          simp only [if_true]
          intro h
          split
          · exact absurd (if_pos ‹_›) h
          · rfl
      simp [inputTargetIndex, hnone]

/-- C1 witness: the worked examples.  With cache mtime 100, input mtime
50 and config mtime 40 the entry is reused without regeneration; with
input mtime 150 the guard fails and the entry is regenerated and
re-persisted. -/
theorem readInputTargetIndex_reuse_iff_witness :
    (inputTargetIndex freshCacheState
      = { result := some sampleIndexEntry, persisted := none })
    ∧ (inputTargetIndex staleCacheState
      = { result := some (regeneratedIndex staleCacheState),
          persisted := some (regeneratedIndex staleCacheState) }) := by
  refine ⟨?_, ?_⟩
  · exact (readInputTargetIndex_reuse_iff freshCacheState 50 100 sampleIndexEntry
      rfl rfl rfl (by decide)).2.1 (by decide) rfl rfl rfl
  · exact (readInputTargetIndex_reuse_iff staleCacheState 150 100 sampleIndexEntry
      rfl rfl rfl (by decide)).2.2 (by decide) rfl rfl rfl

/-- C7: when the cache file's contents fail to deserialize the lookup
returns `undefined` (the parse error is caught, never surfaced), the
whole of `inputTargetIndex` behaves exactly as if the cache file were
missing, and for an indexable input the entry is silently regenerated
and persisted. -/
theorem inputTargetIndex_corrupt_cache
    (st : ProjectInputState) (hparse : st.fs.indexParse = none) :
    readInputTargetIndex st.fs = none
    ∧ inputTargetIndex st
        = inputTargetIndex { st with fs := { st.fs with indexExists := false } }
    ∧ (st.inputFileExists = true → st.inputIsDirectory = false →
        st.engineClaims = true →
        inputTargetIndex st
          = { result := some (regeneratedIndex st),
              persisted := some (regeneratedIndex st) }) := by
  obtain ⟨fe, dir, eng, ⟨ie, imo, xmo, cfg, par⟩, rf, pm⟩ := st
  simp only at hparse
  subst hparse
  have hread : readInputTargetIndex ⟨ie, imo, xmo, cfg, none⟩ = none := by
    simp only [readInputTargetIndex]
    cases ie with
    | false => simp
    | true =>
      simp only [if_true]
      rcases imo with _ | im <;> rcases xmo with _ | xm <;> simp
  refine ⟨hread, ?_, ?_⟩
  · have hread2 : readInputTargetIndex ⟨false, imo, xmo, cfg, none⟩ = none := by
      simp [readInputTargetIndex]
    simp only [inputTargetIndex, hread, hread2, regeneratedIndex]
  · intro hfe hdir heng
    subst hfe hdir heng
    simp [inputTargetIndex, hread]

/-- C7 witness: a corrupt cache entry (mtimes fresh, parse fails) on an
indexable input is regenerated and persisted, same as a missing cache
file. -/
theorem inputTargetIndex_corrupt_cache_witness :
    (inputTargetIndex
        { freshCacheState with
          fs := { freshCacheState.fs with indexParse := none } }).persisted
      = some (regeneratedIndex
          { freshCacheState with
            fs := { freshCacheState.fs with indexParse := none } }) := by
  have h := inputTargetIndex_corrupt_cache
    { freshCacheState with
      fs := { freshCacheState.fs with indexParse := none } } rfl
  rw [h.2.2 rfl rfl rfl]

/-- C10: a cache entry is reused only when the filesystem reports an
mtime for both the input file and the cache file — a missing mtime on
either side makes the lookup miss and (for an indexable input)
regenerate — whereas a project configuration file that exists but
reports no mtime is skipped by the freshness guard and the entry can
still be reused. -/
theorem readInputTargetIndex_mtime_unavailable (st : ProjectInputState) :
    ((st.fs.inputMtime = none ∨ st.fs.indexMtime = none) →
      readInputTargetIndex st.fs = none
      ∧ (st.inputFileExists = true → st.inputIsDirectory = false →
          st.engineClaims = true →
          (inputTargetIndex st).persisted = some (regeneratedIndex st)))
    ∧ (∀ im xm idx, st.fs.inputMtime = some im → st.fs.indexMtime = some xm →
        st.fs.projConfigFile = some none → st.fs.indexParse = some idx →
        st.fs.indexExists = true → im ≤ xm →
        readInputTargetIndex st.fs = some idx) := by
  obtain ⟨fe, dir, eng, ⟨ie, imo, xmo, cfg, par⟩, rf, pm⟩ := st
  constructor
  · intro hmiss
    have hread : readInputTargetIndex ⟨ie, imo, xmo, cfg, par⟩ = none := by
      simp only [readInputTargetIndex]
      cases ie with
      | false => simp
      | true =>
        simp only [if_true]
        simp only at hmiss
        rcases hmiss with h | h <;> subst h
        · simp
        · rcases imo with _ | im <;> simp
    refine ⟨hread, ?_⟩
    intro hfe hdir heng
    simp only at hfe hdir heng
    subst hfe hdir heng
    simp [inputTargetIndex, hread]
  · intro im xm idx him hxm hcfg hpar hie hle
    simp only at him hxm hcfg hpar hie
    subst him hxm hcfg hpar hie
    simp only [readInputTargetIndex, if_true, projModOf, Option.bind]
    rw [if_pos]
    exact ⟨hle, by simp⟩

/-- C10 witness: with input mtime missing the fresh-looking cache is
regenerated; with the configuration file present but reporting no mtime
the cache entry is still reused. -/
theorem readInputTargetIndex_mtime_unavailable_witness :
    readInputTargetIndex
        { freshCacheState.fs with inputMtime := none } = none
    ∧ readInputTargetIndex
        { freshCacheState.fs with projConfigFile := some none }
        = some sampleIndexEntry := by
  constructor
  · have h := readInputTargetIndex_mtime_unavailable
      { freshCacheState with
        fs := { freshCacheState.fs with inputMtime := none } }
    exact (h.1 (Or.inl rfl)).1
  · have h := readInputTargetIndex_mtime_unavailable
      { freshCacheState with
        fs := { freshCacheState.fs with projConfigFile := some none } }
    exact h.2 50 100 sampleIndexEntry rfl rfl rfl rfl rfl (by decide)

/-- C2 counterexample: explicitly requesting the complete discovered
input set still yields `incremental = true`, because the code computes
`incremental = !!files`, contradicting the claim that passing the full
input set is not an incremental render. -/
theorem renderProject_incremental_full_set_counterexample :
    trivialRenderEnv.contextInputs = ["a.qmd"]
    ∧ renderProjectSetup trivialRenderEnv { useFreezer := false }
        (some ["a.qmd"]) = .ok sampleSetup
    ∧ sampleSetup.incremental = true := by
  exact ⟨rfl, rfl, rfl⟩

/-- C2 amended: incremental mode is true if and only if the `files`
argument is explicitly provided (even when it lists the complete
discovered input set): the code computes `incremental = !!files`. -/
theorem renderProject_incremental_iff_explicit
    (env : RenderProjectEnv) (options : RenderOptions)
    (files? : Option (List String)) (setup : RenderSetup)
    (h : renderProjectSetup env options files? = .ok setup) :
    setup.incremental = files?.isSome := by
  revert h
  unfold renderProjectSetup
  cases files? with
  | none =>
    intro h
    cases h
    rfl
  | some fs =>
    by_cases huf : options.useFreezer
    · simp only [huf, Bool.not_true, Bool.and_false, Bool.false_eq_true,
        if_false]
      intro h
      cases h
      rfl
    · simp only [eq_false_of_ne_true huf, Bool.not_false, Option.isSome_some,
        Bool.and_self, if_true]
      cases hm : normalizeRenderTargets env fs with
      | error e =>
        intro h
        cases h
      | ok normalized =>
        dsimp only
        by_cases hira :
          (env.hasIncrementalRenderAll && env.incrementalRenderAll) = true
        · rw [if_pos hira]
          intro h
          cases h
          rfl
        · rw [if_neg hira]
          intro h
          cases h
          rfl

/-- C2 amended witness: an explicit request for the full one-file input
set produces `incremental = true = (some [a.qmd]).isSome`. -/
theorem renderProject_incremental_iff_explicit_witness :
    sampleSetup.incremental = (some ["a.qmd"]).isSome :=
  renderProject_incremental_iff_explicit trivialRenderEnv
    { useFreezer := false } (some ["a.qmd"]) sampleSetup rfl

/-- C3: in an incremental render where the caller did not set
`useFreezer`, the always-execute set handed to the per-file renderer is
exactly the requested file list: every requested file is marked and no
other file is. -/
theorem renderProject_always_execute_marks_requested
    (env : RenderProjectEnv) (l : List String) (setup : RenderSetup)
    (h : renderProjectSetup env { useFreezer := false } (some l) = .ok setup) :
    setup.alwaysExecuteFiles = some l
    ∧ (∀ f, f ∈ l → f ∈ setup.alwaysExecuteFiles.getD [])
    ∧ (∀ f, f ∉ l → f ∉ setup.alwaysExecuteFiles.getD []) := by
  have hae : setup.alwaysExecuteFiles = some l := by
    revert h
    unfold renderProjectSetup
    simp only [Option.isSome_some, Bool.not_false, Bool.and_self, if_true]
    cases hm : normalizeRenderTargets env l with
    | error e =>
      intro h
      cases h
    | ok normalized =>
      dsimp only
      by_cases hira :
        (env.hasIncrementalRenderAll && env.incrementalRenderAll) = true
      · rw [if_pos hira]
        intro h
        cases h
        rfl
      · rw [if_neg hira]
        intro h
        cases h
        rfl
  refine ⟨hae, ?_, ?_⟩
  · intro f hf
    simp [hae, hf]
  · intro f hf
    simp [hae, hf]

/-- C3 witness: the worked example; inputs a.qmd and b.qmd, explicit
subset [a.qmd] with the freezer off: a.qmd is marked always-execute and
b.qmd is not. -/
theorem renderProject_always_execute_witness :
    "a.qmd" ∈ sampleSetup.alwaysExecuteFiles.getD []
    ∧ "b.qmd" ∉ sampleSetup.alwaysExecuteFiles.getD [] := by
  have h := renderProject_always_execute_marks_requested twoFileRenderEnv
    ["a.qmd"] sampleSetup rfl
  exact ⟨h.2.1 _ (by decide), h.2.2 _ (by decide)⟩

/-- C8: the current-project-root variable `QUARTO_PROJECT_DIR` is
published (visible in the environment the body observes) for the
duration of the call, and the `finally` clause clears it on every exit
path — whatever the body's outcome, normal return or thrown error, the
final environment no longer binds it; the body's outcome itself is
passed through unchanged. -/
theorem renderProject_env_cleared {ε α : Type} (env0 : EnvMap)
    (projDir : String) (body : EnvMap → Except ε α) :
    (envSet env0 kQuartoProjectDir projDir) kQuartoProjectDir = some projDir
    ∧ (renderProjectEnvRun env0 projDir body).2 kQuartoProjectDir = none
    ∧ (renderProjectEnvRun env0 projDir body).1
        = body (envSet env0 kQuartoProjectDir projDir) := by
  refine ⟨?_, ?_, rfl⟩
  · simp [envSet]
  · simp [renderProjectEnvRun, envDelete]

end Quarto
